import Mathlib

/-!
# Department-roster command interpreter: a shallow embedding

This file embeds the department-roster line interpreter of
`13_collections_hashmap.rs` (the `departments` loop in `main`) and proves
the specified properties about it.

Modelling choices:

* The Rust store `HashMap<String, Vec<String>>` is embedded as an
  association list `List (String × List String)` with (at most) one entry
  per key.  The order of the entries stands for the hash map's arbitrary
  iteration order; theorems about hash-order independence quantify over
  permutations of the association list.
* Rust's stable ascending `Vec::sort` on `Vec<String>` is embedded as
  `List.insertionSort (· ≤ ·)`: on a linear order a sorted permutation of a
  list of strings is unique, so every correct stable (or unstable) sort of
  strings computes the same function; insertion sort is structurally
  recursive and therefore evaluates inside the kernel.
  Rust compares `String`s byte-wise on their UTF-8 encoding, which agrees
  with Lean's code-point-lexicographic `≤` on `String`.
* `input.trim().split_whitespace()` is embedded as a structural splitter on
  the character list: maximal runs of non-whitespace characters, in order,
  with no empty tokens (trimming is subsumed: leading and trailing
  whitespace never produces a token).
-/

namespace Roster

/-- The store: `HashMap<String, Vec<String>>` as an association list from
department name to that department's employee vector. -/
abbrev Store := List (String × List String)

/-- `departments.get(d)`: the employee list of department `d`, if present. -/
def lookup : Store → String → Option (List String)
  | [], _ => none
  | (k, v) :: rest, d => if k = d then some v else lookup rest d

/-- `departments.keys()`: the department names, in the map's iteration
order. -/
def keys (s : Store) : List String :=
  s.map Prod.fst

/-- `departments.entry(dept).or_insert(Vec::new()).push(name)`: if `dept` is
absent, create it with an empty vector; then push `name` onto the end of
`dept`'s vector.  A fresh entry goes to the end of the association list (its
position is arbitrary for a hash map; permutation lemmas below account for
that). -/
def add (s : Store) (name dept : String) : Store :=
  match s with
  | [] => [(dept, [name])]
  | (k, v) :: rest =>
    if k = dept then (k, v ++ [name]) :: rest
    else (k, v) :: add rest name dept

/-- Rust's byte-wise UTF-8 comparison `a <= b` on strings, as a boolean on
the code-point lists (they agree; see the module comment).  Phrased through
the structural lexicographic order on `List Char` so that it evaluates
inside the kernel. -/
def strLe (a b : String) : Bool :=
  decide (a.data ≤ b.data)

/-- Stable insertion of `a` in front of the first element it is `strLe`-below
(the insertion step of a stable ascending sort). -/
def orderedInsertStr (a : String) : List String → List String
  | [] => [a]
  | b :: l => if strLe a b then a :: b :: l else b :: orderedInsertStr a l

/-- Rust's ascending `sort()` on a `Vec<String>` (see the module comment:
stable insertion sort computes the same function as any correct sort
here). -/
def sortStr : List String → List String
  | [] => []
  | a :: l => orderedInsertStr a (sortStr l)

/-- `RosterStore.list`: the `List <department>` query.  `departments.get`
either finds the employee vector — which is cloned and sorted — or reports
`NotFound` (`none`). -/
def list (s : Store) (dept : String) : Option (List String) :=
  (lookup s dept).map sortStr

/-- `RosterStore.list_all`: the `List All` query.  Collect all department
names, sort them, and pair each with its employee vector cloned and
sorted. -/
def list_all (s : Store) : List (String × List String) :=
  (sortStr (keys s)).map (fun d => (d, sortStr ((lookup s d).getD [])))

/-- One parsed line of user input. -/
inductive Command
  | add (name dept : String)
  | listAll
  | listOne (dept : String)
  | quit
  | invalid
deriving DecidableEq, Repr

/-- The `match words.as_slice()` dispatch: four literal token shapes, in
source order (`Add _ to _`, then `List All`, then `List _`, then `Quit`),
with a catch-all `invalid`. -/
def parseTokens : List String → Command
  | ["Add", name, "to", dept] => Command.add name dept
  | ["List", "All"] => Command.listAll
  | ["List", dept] => Command.listOne dept
  | ["Quit"] => Command.quit
  | _ => Command.invalid

/-- Auxiliary splitter: `cur` holds the characters of the token in progress
(reversed); a whitespace character closes the token (if nonempty), anything
else extends it. -/
def splitWsAux : List Char → List Char → List (List Char)
  | cur, [] => if cur.isEmpty then [] else [cur.reverse]
  | cur, c :: rest =>
    if c.isWhitespace then
      if cur.isEmpty then splitWsAux [] rest
      else cur.reverse :: splitWsAux [] rest
    else splitWsAux (c :: cur) rest

/-- `input.trim().split_whitespace().collect()`: the maximal runs of
non-whitespace characters of the line, in order.  No empty token is ever
produced, so trimming first changes nothing. -/
def tokenize (line : String) : List String :=
  (splitWsAux [] line.toList).map List.asString

/-- Parse one input line, as the loop does: tokenize, then match shapes. -/
def parseLine (line : String) : Command :=
  parseTokens (tokenize line)

/-- What one command prints (abstracting the exact `println!` strings). -/
inductive Output
  | added (name dept : String)
  | roster (entries : List (String × List String))
  | deptEmployees (dept : String) (emps : List String)
  | notFound (dept : String)
  | farewell
  | usage
deriving DecidableEq, Repr

/-- The dispatch's effect on the store: only `Add` mutates it. -/
def dispatchStore (s : Store) : Command → Store
  | Command.add n d => add s n d
  | _ => s

/-- The dispatch's printed result as a function of the command and the
current store. -/
def dispatchOutput (s : Store) : Command → Output
  | Command.add n d => Output.added n d
  | Command.listAll => Output.roster (list_all s)
  | Command.listOne d =>
    match list s d with
    | some es => Output.deptEmployees d es
    | none => Output.notFound d
  | Command.quit => Output.farewell
  | Command.invalid => Output.usage

/-- The two control states of the command loop. -/
inductive LoopState
  | running
  | terminated
deriving DecidableEq, Repr

/-- The loop-state transition: `Quit` (the `break`) terminates, every other
command loops. -/
def stepState : Command → LoopState
  | Command.quit => LoopState.terminated
  | _ => LoopState.running

/-- Run the loop on a list of already-parsed input lines: final store, final
loop state, and the outputs printed (commands after a `Quit` are never
read). -/
def run : Store → List Command → Store × LoopState × List Output
  | s, [] => (s, LoopState.running, [])
  | s, c :: cs =>
    match stepState c with
    | LoopState.terminated => (s, LoopState.terminated, [dispatchOutput s c])
    | LoopState.running =>
      let r := run (dispatchStore s c) cs
      (r.1, r.2.1, dispatchOutput s c :: r.2.2)

/-- Apply a sequence of `Add` commands, given as (employee, department)
pairs, to the initially empty store. -/
def applyAdds (l : List (String × String)) : Store :=
  l.foldl (fun s p => add s p.1 p.2) []

/-- The employees added to department `d` by a sequence of `Add` commands,
in the order in which they were added. -/
def empsOf (l : List (String × String)) (d : String) : List String :=
  (l.filter (fun p => p.2 = d)).map Prod.fst

/-! ## Basic lemmas about the sorting helper -/

theorem strLe_iff (a b : String) : strLe a b = true ↔ a ≤ b := by
  rw [strLe, decide_eq_true_iff]
  exact String.le_iff_toList_le.symm

theorem orderedInsertStr_eq (a : String) (l : List String) :
    orderedInsertStr a l = List.orderedInsert (· ≤ ·) a l := by
  induction l with
  | nil => rfl
  | cons b l ih =>
    by_cases h : a ≤ b
    · rw [orderedInsertStr, if_pos ((strLe_iff a b).mpr h), List.orderedInsert, if_pos h]
    · rw [orderedInsertStr, if_neg (fun hc => h ((strLe_iff a b).mp hc)),
        List.orderedInsert, if_neg h, ih]

theorem sortStr_eq_insertionSort (l : List String) :
    sortStr l = List.insertionSort (· ≤ ·) l := by
  induction l with
  | nil => rfl
  | cons a l ih => rw [sortStr, List.insertionSort, ih, orderedInsertStr_eq]

theorem sortStr_perm (l : List String) : List.Perm (sortStr l) l := by
  rw [sortStr_eq_insertionSort]
  exact List.perm_insertionSort _ l

theorem sortStr_sorted (l : List String) : List.Sorted (· ≤ ·) (sortStr l) := by
  rw [sortStr_eq_insertionSort]
  exact List.sorted_insertionSort _ l

theorem sortStr_congr {l₁ l₂ : List String} (h : List.Perm l₁ l₂) : sortStr l₁ = sortStr l₂ :=
  List.eq_of_perm_of_sorted ((sortStr_perm l₁).trans (h.trans (sortStr_perm l₂).symm))
    (sortStr_sorted l₁) (sortStr_sorted l₂)

/-! ## Basic lemmas about the store operations -/

theorem lookup_add_self (s : Store) (n d : String) :
    lookup (add s n d) d = some ((lookup s d).getD [] ++ [n]) := by
  induction s with
  | nil => simp [add, lookup]
  | cons p rest ih =>
    obtain ⟨k, v⟩ := p
    by_cases h : k = d
    · subst h
      simp [add, lookup]
    · simp [add, lookup, h, ih]

theorem lookup_add_of_ne (s : Store) (n d d' : String) (h : d' ≠ d) :
    lookup (add s n d) d' = lookup s d' := by
  induction s with
  | nil => simp [add, lookup, Ne.symm h]
  | cons p rest ih =>
    obtain ⟨k, v⟩ := p
    by_cases hk : k = d
    · subst hk
      have : k ≠ d' := fun hc => h (hc ▸ rfl)
      simp [add, lookup, this]
    · by_cases hk' : k = d'
      · subst hk'
        simp [add, lookup, hk]
      · simp [add, lookup, hk, hk', ih]

theorem keys_cons (p : String × List String) (rest : Store) :
    keys (p :: rest) = p.1 :: keys rest := rfl

theorem mem_keys_iff_isSome (s : Store) (d : String) :
    d ∈ keys s ↔ (lookup s d).isSome := by
  induction s with
  | nil => simp [keys, lookup]
  | cons p rest ih =>
    obtain ⟨k, v⟩ := p
    by_cases h : k = d
    · subst h
      simp [keys_cons, lookup]
    · simp [keys_cons, lookup, h, ih, Ne.symm h]

theorem keys_add (s : Store) (n d : String) :
    keys (add s n d) = if d ∈ keys s then keys s else keys s ++ [d] := by
  induction s with
  | nil => simp [add, keys]
  | cons p rest ih =>
    obtain ⟨k, v⟩ := p
    by_cases h : k = d
    · subst h
      simp [add, keys_cons]
    · by_cases hm : d ∈ keys rest
      · simp [add, keys_cons, h, ih, hm, Ne.symm h]
      · simp [add, keys_cons, h, ih, hm, Ne.symm h]

theorem nodup_keys_add (s : Store) (n d : String) (h : (keys s).Nodup) :
    (keys (add s n d)).Nodup := by
  rw [keys_add]
  by_cases hm : d ∈ keys s
  · simpa [hm] using h
  · simp [hm, List.nodup_append, h]

/-! ## Unfolding equations for the loop -/

theorem run_nil (s : Store) : run s [] = (s, LoopState.running, []) := rfl

theorem run_cons_quit (s : Store) (cs : List Command) :
    run s (Command.quit :: cs) =
      (s, LoopState.terminated, [dispatchOutput s Command.quit]) := rfl

theorem run_cons_of_ne (s : Store) (c : Command) (cs : List Command)
    (h : c ≠ Command.quit) :
    run s (c :: cs) =
      ((run (dispatchStore s c) cs).1, (run (dispatchStore s c) cs).2.1,
        dispatchOutput s c :: (run (dispatchStore s c) cs).2.2) := by
  cases c with
  | add n d => rfl
  | listAll => rfl
  | listOne d => rfl
  | quit => exact absurd rfl h
  | invalid => rfl

/-! ## What a sequence of Add commands builds -/

theorem lookup_foldl_adds (l : List (String × String)) :
    ∀ (s : Store) (d : String),
      lookup (l.foldl (fun s p => add s p.1 p.2) s) d =
        if (lookup s d).isSome ∨ d ∈ l.map Prod.snd
        then some ((lookup s d).getD [] ++ empsOf l d)
        else none := by
  induction l with
  | nil =>
    intro s d
    cases h : lookup s d <;> simp [empsOf, h]
  | cons p l ih =>
    intro s d
    obtain ⟨n, pd⟩ := p
    rw [List.foldl_cons, ih (add s n pd) d]
    by_cases h : d = pd
    · subst h
      rw [lookup_add_self]
      cases hl : lookup s d <;>
        simp [empsOf, hl, List.filter_cons, List.append_assoc]
    · rw [lookup_add_of_ne s n pd d h]
      have he : empsOf ((n, pd) :: l) d = empsOf l d := by
        simp [empsOf, List.filter_cons, Ne.symm h]
      rw [he]
      refine if_congr ?_ rfl rfl
      constructor
      · rintro (hc | hc)
        · exact Or.inl hc
        · exact Or.inr (by simp [hc])
      · rintro (hc | hc)
        · exact Or.inl hc
        · rw [List.map_cons] at hc
          rcases List.mem_cons.mp hc with hc' | hc'
          · exact absurd hc' h
          · exact Or.inr hc'

theorem lookup_applyAdds (l : List (String × String)) (d : String) :
    lookup (applyAdds l) d =
      if d ∈ l.map Prod.snd then some (empsOf l d) else none := by
  have h := lookup_foldl_adds l [] d
  rw [show (l.foldl (fun s p => add s p.1 p.2) []) = applyAdds l from rfl] at h
  rw [h]
  by_cases hm : d ∈ l.map Prod.snd
  · rw [if_pos (Or.inr hm), if_pos hm]
    simp [lookup]
  · have hc : ¬ ((lookup ([] : Store) d).isSome = true ∨ d ∈ l.map Prod.snd) := by
      simp [lookup, hm]
    rw [if_neg hc, if_neg hm]

theorem mem_keys_applyAdds (l : List (String × String)) (d : String) :
    d ∈ keys (applyAdds l) ↔ d ∈ l.map Prod.snd := by
  rw [mem_keys_iff_isSome, lookup_applyAdds]
  by_cases h : d ∈ l.map Prod.snd <;> simp [h]

theorem nodup_keys_foldl_adds (l : List (String × String)) :
    ∀ s : Store, (keys s).Nodup →
      (keys (l.foldl (fun s p => add s p.1 p.2) s)).Nodup := by
  induction l with
  | nil =>
    intro s h
    simpa using h
  | cons p l ih =>
    intro s h
    exact ih _ (nodup_keys_add _ _ _ h)

theorem nodup_keys_applyAdds (l : List (String × String)) :
    (keys (applyAdds l)).Nodup :=
  nodup_keys_foldl_adds l [] (by simp [keys])

theorem empsOf_perm {l₁ l₂ : List (String × String)} (h : List.Perm l₁ l₂)
    (d : String) : List.Perm (empsOf l₁ d) (empsOf l₂ d) :=
  (h.filter _).map _

theorem keys_applyAdds_perm {l₁ l₂ : List (String × String)}
    (h : List.Perm l₁ l₂) :
    List.Perm (keys (applyAdds l₁)) (keys (applyAdds l₂)) := by
  rw [List.perm_ext_iff_of_nodup (nodup_keys_applyAdds l₁) (nodup_keys_applyAdds l₂)]
  intro d
  rw [mem_keys_applyAdds, mem_keys_applyAdds]
  exact (h.map Prod.snd).mem_iff

theorem list_all_applyAdds_congr {l₁ l₂ : List (String × String)}
    (h : List.Perm l₁ l₂) :
    list_all (applyAdds l₁) = list_all (applyAdds l₂) := by
  have hk : sortStr (keys (applyAdds l₁)) = sortStr (keys (applyAdds l₂)) :=
    sortStr_congr (keys_applyAdds_perm h)
  simp only [list_all, hk]
  apply List.map_congr_left
  intro d hd
  have hd₂ : d ∈ keys (applyAdds l₂) := (sortStr_perm _).mem_iff.mp hd
  have hm₂ : d ∈ l₂.map Prod.snd := (mem_keys_applyAdds l₂ d).mp hd₂
  have hm₁ : d ∈ l₁.map Prod.snd := (h.map Prod.snd).mem_iff.mpr hm₂
  rw [lookup_applyAdds, if_pos hm₁, lookup_applyAdds, if_pos hm₂]
  simp only [Option.getD_some]
  rw [sortStr_congr (empsOf_perm h d)]

/-! ## Hash-iteration-order independence: the store up to permutation -/

theorem lookup_perm {s₁ s₂ : Store} (h : List.Perm s₁ s₂)
    (hnd : (keys s₁).Nodup) (d : String) : lookup s₁ d = lookup s₂ d := by
  induction h with
  | nil => rfl
  | cons p h ih =>
    obtain ⟨k, v⟩ := p
    by_cases hk : k = d
    · subst hk
      simp [lookup]
    · rw [keys_cons, List.nodup_cons] at hnd
      simp only [lookup, if_neg hk]
      exact ih hnd.2
  | swap p q l =>
    obtain ⟨a, va⟩ := p
    obtain ⟨b, vb⟩ := q
    rw [keys_cons, keys_cons, List.nodup_cons, List.nodup_cons] at hnd
    have hab : b ≠ a := fun hc => hnd.1 (by simp [hc])
    by_cases hb : b = d
    · subst hb
      simp [lookup, Ne.symm hab]
    · by_cases ha : a = d
      · subst ha
        simp [lookup, hb]
      · simp [lookup, ha, hb]
  | trans h₁ h₂ ih₁ ih₂ =>
    have hnd₂ : _ := ((h₁.map Prod.fst).nodup_iff).mp hnd
    exact (ih₁ hnd).trans (ih₂ hnd₂)

theorem add_perm {s₁ s₂ : Store} (h : List.Perm s₁ s₂)
    (hnd : (keys s₁).Nodup) (n d : String) :
    List.Perm (add s₁ n d) (add s₂ n d) := by
  induction h with
  | nil => exact List.Perm.refl _
  | cons p h ih =>
    obtain ⟨k, v⟩ := p
    by_cases hk : k = d
    · subst hk
      simp only [add, if_pos rfl]
      exact h.cons _
    · rw [keys_cons, List.nodup_cons] at hnd
      simp only [add, if_neg hk]
      exact (ih hnd.2).cons _
  | swap p q l =>
    obtain ⟨a, va⟩ := p
    obtain ⟨b, vb⟩ := q
    rw [keys_cons, keys_cons, List.nodup_cons, List.nodup_cons] at hnd
    have hab : b ≠ a := fun hc => hnd.1 (by simp [hc])
    by_cases hb : b = d
    · subst hb
      simp only [add, if_pos rfl, if_neg (Ne.symm hab)]
      exact List.Perm.swap _ _ _
    · by_cases ha : a = d
      · subst ha
        simp only [add, if_pos rfl, if_neg hb]
        exact List.Perm.swap _ _ _
      · simp only [add, if_neg ha, if_neg hb]
        exact List.Perm.swap _ _ _
  | trans h₁ h₂ ih₁ ih₂ =>
    have hnd₂ : _ := ((h₁.map Prod.fst).nodup_iff).mp hnd
    exact (ih₁ hnd).trans (ih₂ hnd₂)

theorem list_all_perm {s₁ s₂ : Store} (h : List.Perm s₁ s₂)
    (hnd : (keys s₁).Nodup) : list_all s₁ = list_all s₂ := by
  have hk : sortStr (keys s₁) = sortStr (keys s₂) :=
    sortStr_congr (h.map Prod.fst)
  have hl : ∀ d, lookup s₁ d = lookup s₂ d := lookup_perm h hnd
  simp [list_all, hk, hl]

theorem list_perm {s₁ s₂ : Store} (h : List.Perm s₁ s₂)
    (hnd : (keys s₁).Nodup) (d : String) : list s₁ d = list s₂ d := by
  rw [list, list, lookup_perm h hnd d]

theorem dispatchOutput_perm {s₁ s₂ : Store} (h : List.Perm s₁ s₂)
    (hnd : (keys s₁).Nodup) (c : Command) :
    dispatchOutput s₁ c = dispatchOutput s₂ c := by
  cases c with
  | add n d => rfl
  | listAll => simp [dispatchOutput, list_all_perm h hnd]
  | listOne d => simp [dispatchOutput, list_perm h hnd d]
  | quit => rfl
  | invalid => rfl

theorem dispatchStore_perm {s₁ s₂ : Store} (h : List.Perm s₁ s₂)
    (hnd : (keys s₁).Nodup) (c : Command) :
    List.Perm (dispatchStore s₁ c) (dispatchStore s₂ c) := by
  cases c with
  | add n d => exact add_perm h hnd n d
  | listAll => exact h
  | listOne d => exact h
  | quit => exact h
  | invalid => exact h

theorem nodup_keys_dispatchStore (s : Store) (c : Command)
    (hnd : (keys s).Nodup) : (keys (dispatchStore s c)).Nodup := by
  cases c with
  | add n d => exact nodup_keys_add s n d hnd
  | listAll => exact hnd
  | listOne d => exact hnd
  | quit => exact hnd
  | invalid => exact hnd

theorem run_perm {s₁ s₂ : Store} (h : List.Perm s₁ s₂)
    (hnd : (keys s₁).Nodup) (cs : List Command) :
    List.Perm (run s₁ cs).1 (run s₂ cs).1 ∧
      (run s₁ cs).2.1 = (run s₂ cs).2.1 ∧
      (run s₁ cs).2.2 = (run s₂ cs).2.2 := by
  induction cs generalizing s₁ s₂ with
  | nil => exact ⟨h, rfl, rfl⟩
  | cons c cs ih =>
    by_cases hq : c = Command.quit
    · subst hq
      rw [run_cons_quit, run_cons_quit]
      exact ⟨h, rfl, by rw [dispatchOutput_perm h hnd]⟩
    · rw [run_cons_of_ne s₁ c cs hq, run_cons_of_ne s₂ c cs hq]
      have hrec := ih (dispatchStore_perm h hnd c) (nodup_keys_dispatchStore s₁ c hnd)
      exact ⟨hrec.1, hrec.2.1, by rw [dispatchOutput_perm h hnd, hrec.2.2]⟩

/-! ## Loop state and invariants -/

theorem run_terminated_iff (s : Store) (cs : List Command) :
    (run s cs).2.1 = LoopState.terminated ↔ Command.quit ∈ cs := by
  induction cs generalizing s with
  | nil => simp [run_nil]
  | cons c cs ih =>
    by_cases hq : c = Command.quit
    · subst hq
      simp [run_cons_quit]
    · rw [run_cons_of_ne s c cs hq]
      simp [List.mem_cons, ih, Ne.symm hq]

theorem run_preserves_nonempty (cs : List Command) :
    ∀ s : Store, (∀ d es, lookup s d = some es → es ≠ []) →
      ∀ d es, lookup (run s cs).1 d = some es → es ≠ [] := by
  induction cs with
  | nil =>
    intro s h d es hl
    rw [run_nil] at hl
    exact h d es hl
  | cons c cs ih =>
    intro s h
    by_cases hq : c = Command.quit
    · subst hq
      rw [run_cons_quit]
      exact h
    · rw [run_cons_of_ne s c cs hq]
      apply ih
      intro d es hl
      cases c with
      | add n d' =>
        by_cases hd : d = d'
        · subst hd
          rw [dispatchStore, lookup_add_self] at hl
          cases hl
          simp
        · rw [dispatchStore, lookup_add_of_ne s n d' d hd] at hl
          exact h d es hl
      | listAll => exact h d es hl
      | listOne d' => exact h d es hl
      | quit => exact absurd rfl hq
      | invalid => exact h d es hl

/-! ## Parsing shape lemmas -/

theorem parseTokens_listOne (d : String) (hd : d ≠ "All") :
    parseTokens ["List", d] = Command.listOne d := by
  unfold parseTokens
  split <;> simp_all

theorem parseTokens_invalid (ts : List String)
    (h₁ : ∀ n d, ts ≠ ["Add", n, "to", d]) (h₂ : ts ≠ ["List", "All"])
    (h₃ : ∀ d, ts ≠ ["List", d]) (h₄ : ts ≠ ["Quit"]) :
    parseTokens ts = Command.invalid := by
  unfold parseTokens
  split <;> simp_all

/-! ## The claims -/

/-- C1: for every sequence of `add` operations applied to the initially
empty store, `list_all` returns the departments sorted in ascending
lexicographic order, each paired with its employees sorted in ascending
lexicographic order, and the result does not depend on the order in which
the `Add` commands were issued (any permutation of them yields the same
output). -/
theorem c1_list_all_sorted (l l' : List (String × String)) :
    List.Sorted (· ≤ ·) ((list_all (applyAdds l)).map Prod.fst) ∧
      (∀ p ∈ list_all (applyAdds l), List.Sorted (· ≤ ·) p.2) ∧
      (List.Perm l l' → list_all (applyAdds l) = list_all (applyAdds l')) := by
  refine ⟨?_, ?_, fun h => list_all_applyAdds_congr h⟩
  · have hm : (list_all (applyAdds l)).map Prod.fst = sortStr (keys (applyAdds l)) := by
      simp [list_all, List.map_map, Function.comp_def]
    rw [hm]
    exact sortStr_sorted _
  · intro p hp
    simp only [list_all, List.mem_map] at hp
    obtain ⟨d, _, rfl⟩ := hp
    exact sortStr_sorted _

/-- Witness for C1 at a concrete input: swapping the two `Add` commands
leaves the `list_all` output unchanged. -/
theorem c1_list_all_sorted_witness :
    list_all (applyAdds [("Amir", "Sales"), ("Sally", "Engineering")]) =
      list_all (applyAdds [("Sally", "Engineering"), ("Amir", "Sales")]) :=
  (c1_list_all_sorted [("Amir", "Sales"), ("Sally", "Engineering")]
      [("Sally", "Engineering"), ("Amir", "Sales")]).2.2
    (List.Perm.swap ("Sally", "Engineering") ("Amir", "Sales") [])

/-- C2: `add employee department` creates the department with an empty list
if absent and then appends the employee at the end of that department's
list; it is a total function (no error condition, any strings including
empty ones), and adding the same employee twice to the same department
yields two entries. -/
theorem c2_add_appends (s : Store) (n d : String) :
    lookup (add s n d) d = some ((lookup s d).getD [] ++ [n]) ∧
      (lookup s d = none → lookup (add s n d) d = some [n]) ∧
      lookup (add (add s n d) n d) d = some ((lookup s d).getD [] ++ [n, n]) ∧
      lookup (add s "" "") "" = some ((lookup s "").getD [] ++ [""]) := by
  refine ⟨lookup_add_self s n d, fun h => ?_, ?_, lookup_add_self s "" ""⟩
  · rw [lookup_add_self, h]
    rfl
  · rw [lookup_add_self, lookup_add_self]
    simp

/-- Witness for C2 at a concrete input: adding to an absent department
creates it with exactly the one pushed employee. -/
theorem c2_add_appends_witness :
    lookup ([] : Store) "Sales" = none ∧
      lookup (add ([] : Store) "Amir" "Sales") "Sales" = some ["Amir"] :=
  ⟨rfl, (c2_add_appends [] "Amir" "Sales").2.1 rfl⟩

/-- C3: for every department present in the store, `list` returns a copy of
its employee list sorted in ascending lexicographic order (a permutation of
the stored list, in sorted order); in particular after `Add Bob to Sales`
then `Add Amir to Sales` on the empty store, `list "Sales"` returns
`["Amir", "Bob"]`. -/
theorem c3_list_sorted (s : Store) (d : String) (es : List String)
    (h : lookup s d = some es) :
    list s d = some (sortStr es) ∧ List.Sorted (· ≤ ·) (sortStr es) ∧
      List.Perm (sortStr es) es ∧
      list (applyAdds [("Bob", "Sales"), ("Amir", "Sales")]) "Sales" =
        some ["Amir", "Bob"] := by
  refine ⟨?_, sortStr_sorted es, sortStr_perm es, by decide⟩
  rw [list, h]
  rfl

/-- Witness for C3 at a concrete input: a stored list `["Bob", "Amir"]` is
reported sorted. -/
theorem c3_list_sorted_witness :
    lookup [("Sales", ["Bob", "Amir"])] "Sales" = some ["Bob", "Amir"] ∧
      list [("Sales", ["Bob", "Amir"])] "Sales" = some (sortStr ["Bob", "Amir"]) :=
  ⟨by decide, (c3_list_sorted [("Sales", ["Bob", "Amir"])] "Sales"
      ["Bob", "Amir"] (by decide)).1⟩

/-- C4: querying an absent department reports `NotFound`, leaves the store
unchanged, keeps the loop running (the remaining commands execute exactly
as they would without the query), and a department never targeted by an
`Add` is always absent. -/
theorem c4_notfound (s : Store) (d : String) (cs : List Command)
    (h : lookup s d = none) :
    list s d = none ∧
      dispatchOutput s (Command.listOne d) = Output.notFound d ∧
      dispatchStore s (Command.listOne d) = s ∧
      stepState (Command.listOne d) = LoopState.running ∧
      (run s (Command.listOne d :: cs)).1 = (run s cs).1 ∧
      (run s (Command.listOne d :: cs)).2.1 = (run s cs).2.1 ∧
      (∀ l : List (String × String), d ∉ l.map Prod.snd →
        lookup (applyAdds l) d = none) := by
  have hlist : list s d = none := by rw [list, h]; rfl
  refine ⟨hlist, ?_, rfl, rfl, ?_, ?_, ?_⟩
  · simp [dispatchOutput, hlist]
  · rw [run_cons_of_ne s (Command.listOne d) cs (by simp)]
    rfl
  · rw [run_cons_of_ne s (Command.listOne d) cs (by simp)]
    rfl
  · intro l hl
    rw [lookup_applyAdds, if_neg hl]

/-- Witness for C4 at a concrete input: `List Marketing` on the empty store
reports `NotFound` and the loop keeps running. -/
theorem c4_notfound_witness :
    lookup ([] : Store) "Marketing" = none ∧
      dispatchOutput ([] : Store) (Command.listOne "Marketing") =
        Output.notFound "Marketing" :=
  ⟨rfl, (c4_notfound [] "Marketing" [] rfl).2.1⟩

/-- C5: parsing tokenizes the trimmed line on whitespace and matches the
tokens against exactly four literal shapes: `Add name to dept`, `List All`
(which takes precedence, so the line `List All` is never read as listing a
department named `All`), `List dept`, and `Quit`; every other token
sequence (wrong casing, missing literal `to` or `All`) is `invalid`, which
prints the usage hint and keeps the loop running. -/
theorem c5_parse (s : Store) (ts : List String) (n d : String) :
    parseTokens ["Add", n, "to", d] = Command.add n d ∧
      parseTokens ["List", "All"] = Command.listAll ∧
      (d ≠ "All" → parseTokens ["List", d] = Command.listOne d) ∧
      parseTokens ["Quit"] = Command.quit ∧
      parseLine "List All" = Command.listAll ∧
      parseLine "List All" ≠ Command.listOne "All" ∧
      ((∀ n' d', ts ≠ ["Add", n', "to", d']) → ts ≠ ["List", "All"] →
        (∀ d', ts ≠ ["List", d']) → ts ≠ ["Quit"] →
        parseTokens ts = Command.invalid) ∧
      parseLine "add Bob to Sales" = Command.invalid ∧
      parseLine "List" = Command.invalid ∧
      dispatchOutput s Command.invalid = Output.usage ∧
      stepState Command.invalid = LoopState.running := by
  refine ⟨rfl, rfl, parseTokens_listOne d, rfl, by decide, by decide,
    parseTokens_invalid ts, by decide, by decide, rfl, rfl⟩

/-- Witness for C5 at concrete inputs: a department that is not the literal
`All` parses as `listOne`, and a token sequence matching no shape parses as
`invalid`. -/
theorem c5_parse_witness :
    parseTokens ["List", "Sales"] = Command.listOne "Sales" ∧
      parseTokens ["Hello"] = Command.invalid :=
  ⟨(c5_parse [] ["Hello"] "Bob" "Sales").2.2.1 (by decide),
    (c5_parse [] ["Hello"] "Bob" "Sales").2.2.2.2.2.2.1 (by simp) (by simp)
      (by simp) (by simp)⟩

/-- C6: the command loop is a two-state machine: it starts in `running`,
reaches `terminated` exactly on a `Quit` command (which prints the
farewell), and every other command is a self-loop on `running`, so a run
terminates exactly when its input contains a `Quit`. -/
theorem c6_state_machine (s : Store) (cs : List Command) (c : Command) :
    (run s []).2.1 = LoopState.running ∧
      (stepState c = LoopState.terminated ↔ c = Command.quit) ∧
      ((run s cs).2.1 = LoopState.terminated ↔ Command.quit ∈ cs) ∧
      dispatchOutput s Command.quit = Output.farewell := by
  refine ⟨rfl, ?_, run_terminated_iff s cs, rfl⟩
  cases c <;> simp [stepState]

/-- Witness for C6 at a concrete input: a run whose only command is `Quit`
terminates. -/
theorem c6_state_machine_witness :
    (run ([] : Store) [Command.quit]).2.1 = LoopState.terminated :=
  (c6_state_machine [] [Command.quit] Command.quit).2.2.1.mpr (by decide)

/-- C7: in every store reachable by running any command sequence from the
initially empty store, every department present in the mapping has a
non-empty employee list. -/
theorem c7_nonempty_invariant (cs : List Command) (d : String)
    (es : List String) (h : lookup (run [] cs).1 d = some es) : es ≠ [] :=
  run_preserves_nonempty cs []
    (fun d' es' h' => by rw [show lookup ([] : Store) d' = none from rfl] at h'; cases h')
    d es h

/-- Witness for C7 at a concrete input: after one `Add`, the department's
list is the non-empty `["Sally"]`. -/
theorem c7_nonempty_invariant_witness :
    lookup (run ([] : Store) [Command.add "Sally" "Engineering"]).1 "Engineering" =
        some ["Sally"] ∧
      ["Sally"] ≠ ([] : List String) :=
  ⟨by decide, c7_nonempty_invariant [Command.add "Sally" "Engineering"]
      "Engineering" ["Sally"] (by decide)⟩

/-- C8: the `List` queries never mutate the store (sorting happens on a
clone): the store after a `listOne` or `listAll` dispatch equals the store
before, so repeating the query yields the identical output. -/
theorem c8_queries_pure (s : Store) (d : String) :
    dispatchStore s (Command.listOne d) = s ∧
      dispatchStore s Command.listAll = s ∧
      dispatchOutput (dispatchStore s (Command.listOne d)) (Command.listOne d) =
        dispatchOutput s (Command.listOne d) ∧
      dispatchOutput (dispatchStore s Command.listAll) Command.listAll =
        dispatchOutput s Command.listAll :=
  ⟨rfl, rfl, rfl, rfl⟩

/-- C9: `add` modifies only the targeted department: every other department
name keeps its employee list, and its presence in (or absence from) the
mapping, unchanged. -/
theorem c9_add_frame (s : Store) (n d d' : String) (h : d' ≠ d) :
    lookup (add s n d) d' = lookup s d' ∧
      (d' ∈ keys (add s n d) ↔ d' ∈ keys s) := by
  refine ⟨lookup_add_of_ne s n d d' h, ?_⟩
  rw [mem_keys_iff_isSome, mem_keys_iff_isSome, lookup_add_of_ne s n d d' h]

/-- Witness for C9 at a concrete input: adding to `Sales` leaves
`Engineering` untouched. -/
theorem c9_add_frame_witness :
    lookup (add [("Engineering", ["Sally"])] "Amir" "Sales") "Engineering" =
      lookup [("Engineering", ["Sally"])] "Engineering" :=
  (c9_add_frame [("Engineering", ["Sally"])] "Amir" "Sales" "Engineering"
      (by decide)).1

/-- C10: the printed output of every command is a deterministic function of
the command and the store contents: two stores holding the same entries in
different hash-iteration orders (a permutation, with the keys unique as in
a map) produce identical output for every command and for every whole run,
because `list_all` sorts the department names before printing. -/
theorem c10_output_deterministic (s₁ s₂ : Store) (c : Command)
    (cs : List Command) (h : List.Perm s₁ s₂) (hnd : (keys s₁).Nodup) :
    dispatchOutput s₁ c = dispatchOutput s₂ c ∧
      list_all s₁ = list_all s₂ ∧
      (run s₁ cs).2.2 = (run s₂ cs).2.2 :=
  ⟨dispatchOutput_perm h hnd c, list_all_perm h hnd, (run_perm h hnd cs).2.2⟩

/-- Witness for C10 at a concrete input: two iteration orders of the same
two-department map have the same `list_all` output. -/
theorem c10_output_deterministic_witness :
    list_all [("A", ["x"]), ("B", ["y"])] = list_all [("B", ["y"]), ("A", ["x"])] :=
  (c10_output_deterministic [("A", ["x"]), ("B", ["y"])] [("B", ["y"]), ("A", ["x"])]
      Command.listAll [] (List.Perm.swap ("B", ["y"]) ("A", ["x"]) []) (by decide)).2.1

end Roster
